import Mathlib

/-!
Verification of the eeg-server repository (Go).

The file shallowly embeds the functional core of the program:

* the frame assembler of readLoop (src/internal/serial/serial.go, lines 93-126):
  an accumulator is scanned while at least 25 bytes remain; a non-header front
  byte (header is 0x41 = 65) is discarded, otherwise the front 25 bytes are
  copied out as one frame;
* the bounded handoff channel (capacity 100) with the non-blocking sends of
  readLoop (which logs a warning on a full buffer) and mockLoop (whose default
  branch is empty, so a drop is silent);
* the producer session structure of readLoop and mockLoop (close of the data
  stream happens exactly once, via defer, when the loop returns on a read
  error or on observing cancellation);
* the channel decoder of the consumer goroutine in src/cmd/server/main.go
  (lines 83-133): 24-bit big-endian reassembly, sign extension by OR with
  0xFF000000, int32 reinterpretation, and the volts conversion
  (raw * (5.0 / 2^24)) / gain.  Floating-point arithmetic is modelled over
  the rationals; on the concrete inputs appearing below every float64
  operation of the source is exact, except the final division by the gain,
  whose real-number value is what the rational model computes;
* the 24-bit big-endian encoder of mockLoop (arithmetic shift right of an
  int32 is floor division by a power of two, masking with 0xFF is taking the
  remainder modulo 256);
* the settings store (default gain 4.0) and the handleSetGain HTTP handler
  (rejects gain 0 with status 400, otherwise stores the value, status 200);
* the port selection of main: early exit when no ports are listed, the mock
  override argument, and FindPreferredPort (first port whose name contains
  usbmodem or usbserial as a substring).

Bytes are modelled as natural numbers (the assembler only compares them with
65; the decoder lemmas carry explicit bounds b < 256 where they matter).
-/

set_option maxHeartbeats 1000000

namespace EEG

/-! ## Frame assembler (readLoop inner loop, serial.go lines 99-126) -/

/-- One pass of the inner packet loop of readLoop, structured on a fuel
argument so that the definition is computable by kernel reduction.  Each
iteration consumes at least one byte, so fuel equal to the buffer length is
always sufficient.  The source loop condition is len(packetBuf) >= 25; a
non-header front byte is discarded (resynchronization), otherwise the front
25 bytes are copied out as a frame and the accumulator advances past them.
The source re-checks len(packetBuf) < 25 after finding the header, but that
branch is unreachable under the loop condition and is omitted here. -/
def processAccGo : Nat → List Nat → List (List Nat) × List Nat
  | 0, buf => ([], buf)
  | _ + 1, [] => ([], [])
  | fuel + 1, b :: rest =>
    if 25 ≤ (b :: rest).length then
      if b = 65 then
        let res := processAccGo fuel ((b :: rest).drop 25)
        ((b :: rest).take 25 :: res.1, res.2)
      else
        processAccGo fuel rest
    else ([], b :: rest)

/-- The inner packet loop of readLoop: frames emitted and remaining
accumulator. -/
def processAcc (buf : List Nat) : List (List Nat) × List Nat :=
  processAccGo buf.length buf

/-- Number of iterations the inner packet loop performs on a given
accumulator (fuel variant, mirroring processAccGo step for step). -/
def processAccCountGo : Nat → List Nat → Nat
  | 0, _ => 0
  | _ + 1, [] => 0
  | fuel + 1, b :: rest =>
    if 25 ≤ (b :: rest).length then
      if b = 65 then processAccCountGo fuel ((b :: rest).drop 25) + 1
      else processAccCountGo fuel rest + 1
    else 0

/-- Number of iterations of the inner packet loop. -/
def processAccCount (buf : List Nat) : Nat :=
  processAccCountGo buf.length buf

/-- The read loop of readLoop across a sequence of reads: each chunk is
appended to the accumulator and the inner loop runs (only when the read
returned at least one byte, mirroring the n > 0 guard).  Returns all frames
emitted, in order, and the final accumulator. -/
def runChunks (acc : List Nat) : List (List Nat) → List (List Nat) × List Nat
  | [] => ([], acc)
  | c :: cs =>
    if c.isEmpty then runChunks acc cs
    else
      let res := processAcc (acc ++ c)
      let rest := runChunks res.2 cs
      (res.1 ++ rest.1, rest.2)

/-- A valid wire frame: 25 bytes, first byte the header 0x41. -/
def validFrame (f : List Nat) : Prop :=
  f.length = 25 ∧ f.headD 0 = 65

instance validFrame.dec (f : List Nat) : Decidable (validFrame f) :=
  inferInstanceAs (Decidable (f.length = 25 ∧ f.headD 0 = 65))

/-- StreamOf P fs s: the byte stream s is a concatenation of the valid
frames fs, in order, interleaved with noise bytes satisfying P.  With P
true everywhere this is the interleaving of the original claim; with
P b = (b ≠ 65) the noise may not contain the header byte. -/
inductive StreamOf (P : Nat → Prop) : List (List Nat) → List Nat → Prop where
  | nil : StreamOf P [] []
  | noise {fs : List (List Nat)} {s : List Nat} (b : Nat) (hb : P b)
      (h : StreamOf P fs s) : StreamOf P fs (b :: s)
  | frame {fs : List (List Nat)} {s : List Nat} (f : List Nat) (hf : validFrame f)
      (h : StreamOf P fs s) : StreamOf P (f :: fs) (f ++ s)

/-! ## Bounded handoff channel (DataStream, capacity 100) -/

/-- Buffered-channel send with select/default: append when a slot is free,
otherwise leave the queue unchanged (the frame being sent is dropped). -/
def chanPush (q : List (List Nat)) (f : List Nat) : List (List Nat) :=
  if q.length < 100 then q ++ [f] else q

/-- The send of readLoop (serial.go lines 121-125): non-blocking; the
default branch logs a warning.  Second component: whether the drop warning
was logged. -/
def enqueueReal (q : List (List Nat)) (f : List Nat) : List (List Nat) × Bool :=
  if q.length < 100 then (q ++ [f], false) else (q, true)

/-- The send of mockLoop (serial.go lines 169-172): non-blocking; the
default branch is empty, so nothing is logged on a drop. -/
def enqueueMock (q : List (List Nat)) (f : List Nat) : List (List Nat) × Bool :=
  if q.length < 100 then (q ++ [f], false) else (q, false)

/-- Channel history events: a producer send or a consumer receive. -/
inductive ChanOp where
  | enq (f : List Nat)
  | deq
deriving DecidableEq

/-- Channel state: buffered frames and the frames the consumer has
received so far. -/
structure ChanState where
  queue : List (List Nat)
  received : List (List Nat)
deriving DecidableEq

/-- One channel event: a non-blocking send (drop-on-full) or a receive of
the front buffered frame (a receive on an empty open channel is modelled as
a no-op; the consumer would block). -/
def stepChan (s : ChanState) : ChanOp → ChanState
  | ChanOp.enq f => ⟨chanPush s.queue f, s.received⟩
  | ChanOp.deq =>
    match s.queue with
    | [] => s
    | f :: rest => ⟨rest, s.received ++ [f]⟩

/-- Run a sequence of channel events. -/
def runChan (s : ChanState) : List ChanOp → ChanState
  | [] => s
  | op :: ops => runChan (stepChan s op) ops

/-- The frames whose send succeeded (queue not full at the moment of the
send), in send order, given the initial queue contents. -/
def acceptedRun (q : List (List Nat)) : List ChanOp → List (List Nat)
  | [] => []
  | ChanOp.enq f :: ops =>
    if q.length < 100 then f :: acceptedRun (q ++ [f]) ops
    else acceptedRun q ops
  | ChanOp.deq :: ops =>
    match q with
    | [] => acceptedRun [] ops
    | _ :: rest => acceptedRun rest ops

/-! ## Producer sessions (readLoop and mockLoop) -/

/-- One iteration of the outer readLoop, as observed by the loop: either
cancellation is seen at the top of the loop, or port.Read returns an error,
or it returns a chunk of bytes. -/
inductive ReadEvent where
  | chunk (c : List Nat)
  | fail
  | cancel
deriving DecidableEq

/-- Events on which readLoop returns (running its deferred close). -/
def isTerminal : ReadEvent → Bool
  | ReadEvent.chunk _ => false
  | ReadEvent.fail => true
  | ReadEvent.cancel => true

/-- The chunks successfully read before the first terminal event. -/
def chunksOf : List ReadEvent → List (List Nat)
  | [] => []
  | ReadEvent.chunk c :: evs => c :: chunksOf evs
  | ReadEvent.fail :: _ => []
  | ReadEvent.cancel :: _ => []

/-- readLoop over a sequence of iteration events: the frames it emits and
the number of times it closes the data stream (the deferred close runs
exactly when the loop returns, which happens at the first read error or
observed cancellation; nothing after that point is executed). -/
def readLoopRun (acc : List Nat) : List ReadEvent → List (List Nat) × Nat
  | [] => ([], 0)
  | ReadEvent.cancel :: _ => ([], 1)
  | ReadEvent.fail :: _ => ([], 1)
  | ReadEvent.chunk c :: evs =>
    if c.isEmpty then readLoopRun acc evs
    else
      let res := processAcc (acc ++ c)
      let rest := readLoopRun res.2 evs
      (res.1 ++ rest.1, rest.2)

/-- One iteration of mockLoop: a ticker tick or observed cancellation. -/
inductive MockEvent where
  | tick
  | cancel
deriving DecidableEq

/-- Number of times mockLoop closes the data stream over a sequence of
iteration events (the deferred close runs exactly when the loop returns,
on the first observed cancellation). -/
def mockCloseCount : List MockEvent → Nat
  | [] => 0
  | MockEvent.cancel :: _ => 1
  | MockEvent.tick :: evs => mockCloseCount evs

/-- The consumer range loop over a closed channel holding the buffered
frames q: it receives every buffered frame, in order, then observes
end-of-stream (true). -/
def consumeClosed : List (List Nat) → List (List Nat) × Bool
  | [] => ([], true)
  | f :: q =>
    let r := consumeClosed q
    (f :: r.1, r.2)

/-! ## Channel decoder (consumer goroutine, main.go lines 83-133) -/

/-- Reassembly of one channel: uint32(b0) shifted left 16, OR uint32(b1)
shifted left 8, OR uint32(b2). -/
def rawValue (b0 b1 b2 : Nat) : Nat :=
  b0 <<< 16 ||| b1 <<< 8 ||| b2

/-- Sign extension of the source: when bit 23 is set (val32 AND 0x800000
is nonzero), OR in 0xFF000000. -/
def signExtend (w : Nat) : Nat :=
  if w &&& 8388608 ≠ 0 then w ||| 4278190080 else w

/-- Reinterpretation of a 32-bit pattern as a signed int32 (the int32(val32)
conversion of the source). -/
def toInt32 (w : Nat) : Int :=
  if w < 2147483648 then (w : Int) else (w : Int) - 4294967296

/-- The signed sample the consumer reconstructs from one 3-byte channel
triplet. -/
def decode24 (b0 b1 b2 : Nat) : Int :=
  toInt32 (signExtend (rawValue b0 b1 b2))

/-- scale := vRef / maxADC = 5.0 / 2^24 (exact in float64 and here). -/
def scaleQ : ℚ := 5 / 16777216

/-- volts := (float64(valSigned) * scale) / currentGain. -/
def decodeChannel (b0 b1 b2 : Nat) (gain : ℚ) : ℚ :=
  ((decode24 b0 b1 b2 : Int) : ℚ) * scaleQ / gain

/-- The per-packet body of the consumer goroutine: skip packets of wrong
length, skip packets with a wrong header, otherwise decode all 8 channels
(bytes of channel ch are at offsets 1+3*ch, 2+3*ch, 3+3*ch).  The gain is
used as read from the settings store; there is no zero-gain check here. -/
def decodeFrame (packet : List Nat) (gain : ℚ) : Option (List ℚ) :=
  if packet.length ≠ 25 then none
  else if packet.headD 0 ≠ 65 then none
  else
    some ((List.range 8).map fun ch =>
      decodeChannel (packet.getD (1 + ch * 3) 0) (packet.getD (1 + ch * 3 + 1) 0)
        (packet.getD (1 + ch * 3 + 2) 0) gain)

/-- The value of a 24-bit two's-complement word, stated the way the spec
states it (the reference definition the source is compared against). -/
def signed24Spec (r : Nat) : Int :=
  if 8388608 ≤ r then (r : Int) - 16777216 else (r : Int)

/-! ## Synthetic 24-bit encoder (mockLoop, serial.go lines 160-165) -/

/-- byte((valInt >> 16) AND 0xFF): arithmetic shift right of an int32 is
floor division by 2^16, masking with 0xFF is the remainder modulo 256
(nonnegative). -/
def encB0 (v : Int) : Nat := ((v / 65536) % 256).toNat

/-- byte((valInt >> 8) AND 0xFF). -/
def encB1 (v : Int) : Nat := ((v / 256) % 256).toNat

/-- byte(valInt AND 0xFF). -/
def encB2 (v : Int) : Nat := (v % 256).toNat

/-! ## Settings store and gain control (settings.go, api.go handleSetGain) -/

/-- Default gain of settings.New(). -/
def defaultGain : ℚ := 4

/-- handleSetGain: a request whose body fails to decode (none) answers 400
and leaves the gain unchanged; a gain of exactly 0 answers 400 and leaves
the gain unchanged; any other value is stored and answered with 200.
Result: (stored gain after the request, HTTP status). -/
def handleSetGain (gain : ℚ) (body : Option ℚ) : ℚ × Nat :=
  match body with
  | none => (gain, 400)
  | some v => if v = 0 then (gain, 400) else (v, 200)

/-- The gain stored after a sequence of set-gain requests, starting from a
given stored value. -/
def runRequests (gain : ℚ) : List (Option ℚ) → ℚ
  | [] => gain
  | r :: rs => runRequests (handleSetGain gain r).1 rs

/-! ## Port selection (main.go lines 29-55, serial.go FindPreferredPort) -/

/-- Whether the second list starts with the first (helper for substring
containment, mirroring strings.Contains). -/
def startsWithL : List Char → List Char → Bool
  | [], _ => true
  | _ :: _, [] => false
  | a :: as, b :: bs => a == b && startsWithL as bs

/-- strings.Contains: the needle occurs contiguously inside the haystack. -/
def containsL : List Char → List Char → Bool
  | needle, [] => startsWithL needle []
  | needle, b :: t => startsWithL needle (b :: t) || containsL needle t

/-- The name filter of FindPreferredPort. -/
def portMatches (p : List Char) : Bool :=
  containsL ("usbmodem".toList) p || containsL ("usbserial".toList) p

/-- FindPreferredPort: the first port whose name matches, or the empty
string. -/
def FindPreferredPort : List (List Char) → List Char
  | [] => []
  | p :: ps => if portMatches p then p else FindPreferredPort ps

/-- The sentinel port name selecting the mock generator. -/
def portMock : List Char := "MOCK".toList

/-- The manual override check of main: len(os.Args) > 1 and
os.Args[1] == "mock". -/
def isMockArg (argv : List (List Char)) : Bool :=
  decide (1 < argv.length) && (argv.getD 1 [] == "mock".toList)

/-- The port-selection logic of main: with no listed ports the program
prints a message and returns (no source is started, modelled as none);
otherwise the mock argument forces the mock port, an empty
FindPreferredPort result falls back to the mock port, and otherwise the
first matching port is used. -/
def selectPort (argv : List (List Char)) (ports : List (List Char)) :
    Option (List Char) :=
  if ports.length = 0 then none
  else if isMockArg argv then some portMock
  else if FindPreferredPort ports = [] then some portMock
  else some (FindPreferredPort ports)

/-! ## Concrete data for counterexamples and witnesses -/

/-- A valid frame: header byte then 24 zero payload bytes. -/
def frameF : List Nat := 65 :: List.replicate 24 0

/-- The frame frameF preceded by a single noise byte equal to the header
value 0x41. -/
def streamS : List Nat := 65 :: frameF

/-- frameF surrounded by non-header noise bytes 7 and 9. -/
def witStream : List Nat := 7 :: (frameF ++ [9])

/-- witStream split into two reads of 10 and 17 bytes (the split falls in
the middle of the frame). -/
def witChunks : List (List Nat) := [witStream.take 10, witStream.drop 10]


/-! ## Assembler lemmas -/

theorem processAccGo_eq_processAcc :
    ∀ (fuel : Nat) (buf : List Nat), buf.length ≤ fuel →
      processAccGo fuel buf = processAcc buf := by
  intro fuel
  induction fuel using Nat.strong_induction_on with
  | _ fuel ih =>
    intro buf hle
    match fuel, buf with
    | 0, [] => rfl
    | 0, _ :: _ => simp at hle
    | n + 1, [] => rfl
    | n + 1, b :: rest =>
      show processAccGo (n + 1) (b :: rest) = processAccGo (rest.length + 1) (b :: rest)
      have hr : rest.length ≤ n := by
        simp only [List.length_cons] at hle; omega
      by_cases h25 : 25 ≤ (b :: rest).length
      · by_cases hb : b = 65
        · simp only [processAccGo, if_pos h25, if_pos hb]
          rw [ih n (by omega) ((b :: rest).drop 25)
              (by simp only [List.length_drop, List.length_cons]; omega),
            ih rest.length (by omega) ((b :: rest).drop 25)
              (by simp only [List.length_drop, List.length_cons]; omega)]
        · simp only [processAccGo, if_pos h25, if_neg hb]
          rw [ih n (by omega) rest hr, ih rest.length (by omega) rest le_rfl]
      · simp only [processAccGo, if_neg h25]

theorem processAcc_small (buf : List Nat) (h : buf.length < 25) :
    processAcc buf = ([], buf) := by
  match buf with
  | [] => rfl
  | b :: rest =>
    show processAccGo (rest.length + 1) (b :: rest) = ([], b :: rest)
    simp only [processAccGo]
    rw [if_neg (by omega)]

theorem processAcc_drop {b : Nat} {rest : List Nat} (hb : b ≠ 65)
    (h25 : 25 ≤ (b :: rest).length) :
    processAcc (b :: rest) = processAcc rest := by
  show processAccGo (rest.length + 1) (b :: rest) = _
  simp only [processAccGo, if_pos h25, if_neg hb]
  exact processAccGo_eq_processAcc rest.length rest le_rfl

theorem processAcc_frame {rest : List Nat} (h25 : 25 ≤ (65 :: rest).length) :
    processAcc (65 :: rest) =
      ((65 :: rest).take 25 :: (processAcc ((65 :: rest).drop 25)).1,
        (processAcc ((65 :: rest).drop 25)).2) := by
  show processAccGo (rest.length + 1) (65 :: rest) = _
  simp only [processAccGo, if_pos h25, if_pos rfl]
  rw [processAccGo_eq_processAcc rest.length ((65 :: rest).drop 25)
    (by simp only [List.length_drop, List.length_cons]; omega)]
  rw [if_pos trivial]

theorem processAcc_len_aux :
    ∀ (n : Nat) (buf : List Nat), buf.length ≤ n → (processAcc buf).2.length < 25 := by
  intro n
  induction n with
  | zero =>
    intro buf h
    have hb : buf = [] := List.eq_nil_of_length_eq_zero (by omega)
    subst hb
    show (([], []) : List (List Nat) × List Nat).2.length < 25
    simp
  | succ n ih =>
    intro buf h
    by_cases h25 : 25 ≤ buf.length
    · match buf with
      | b :: rest =>
        have hlen : rest.length + 1 ≤ n + 1 := by
          simpa using h
        by_cases hb : b = 65
        · subst hb
          rw [processAcc_frame h25]
          exact ih ((65 :: rest).drop 25)
            (by simp only [List.length_drop, List.length_cons]; omega)
        · rw [processAcc_drop hb h25]
          exact ih rest (by omega)
    · rw [processAcc_small buf (by omega)]
      show buf.length < 25
      omega

theorem processAcc_len (buf : List Nat) : (processAcc buf).2.length < 25 :=
  processAcc_len_aux buf.length buf le_rfl

theorem processAcc_ext_aux :
    ∀ (n : Nat) (buf ext : List Nat), buf.length ≤ n →
      processAcc (buf ++ ext) =
        ((processAcc buf).1 ++ (processAcc ((processAcc buf).2 ++ ext)).1,
          (processAcc ((processAcc buf).2 ++ ext)).2) := by
  intro n
  induction n with
  | zero =>
    intro buf ext h
    have hb : buf = [] := List.eq_nil_of_length_eq_zero (by omega)
    subst hb
    have he : processAcc [] = ([], []) := rfl
    rw [he]
    simp
  | succ n ih =>
    intro buf ext h
    by_cases h25 : 25 ≤ buf.length
    · match buf with
      | b :: rest =>
        have hlen : rest.length + 1 ≤ n + 1 := by
          simpa using h
        by_cases hb : b = 65
        · subst hb
          have h25e : 25 ≤ (65 :: (rest ++ ext)).length := by
            simp only [List.length_cons, List.length_append] at h25 ⊢
            omega
          have e1 : (65 :: rest) ++ ext = 65 :: (rest ++ ext) := rfl
          rw [e1, processAcc_frame h25e, processAcc_frame h25]
          have ht : (65 :: (rest ++ ext)).take 25 = (65 :: rest).take 25 := by
            rw [← e1]; exact List.take_append_of_le_length h25
          have hd : (65 :: (rest ++ ext)).drop 25 = (65 :: rest).drop 25 ++ ext := by
            rw [← e1]; exact List.drop_append_of_le_length h25
          rw [ht, hd, ih ((65 :: rest).drop 25) ext
            (by simp only [List.length_drop, List.length_cons]; omega)]
          simp
        · have h25e : 25 ≤ (b :: (rest ++ ext)).length := by
            simp only [List.length_cons, List.length_append] at h25 ⊢
            omega
          have e1 : (b :: rest) ++ ext = b :: (rest ++ ext) := rfl
          rw [e1, processAcc_drop hb h25e, processAcc_drop hb h25]
          exact ih rest ext (by omega)
    · rw [processAcc_small buf (by omega)]
      simp

theorem processAcc_ext (buf ext : List Nat) :
    processAcc (buf ++ ext) =
      ((processAcc buf).1 ++ (processAcc ((processAcc buf).2 ++ ext)).1,
        (processAcc ((processAcc buf).2 ++ ext)).2) :=
  processAcc_ext_aux buf.length buf ext le_rfl

theorem runChunks_flatten :
    ∀ (chunks : List (List Nat)) (acc : List Nat), acc.length < 25 →
      runChunks acc chunks = processAcc (acc ++ chunks.flatten) := by
  intro chunks
  induction chunks with
  | nil =>
    intro acc h
    simp only [runChunks, List.flatten_nil, List.append_nil]
    exact (processAcc_small acc h).symm
  | cons c cs ih =>
    intro acc h
    by_cases hc : c.isEmpty
    · have hce : c = [] := List.isEmpty_iff.mp hc
      subst hce
      simp only [runChunks, if_pos hc]
      rw [ih acc h]
      simp
    · simp only [runChunks, if_neg hc]
      rw [ih ((processAcc (acc ++ c)).2) (processAcc_len (acc ++ c))]
      rw [List.flatten_cons, ← List.append_assoc, processAcc_ext (acc ++ c) cs.flatten]

theorem processAcc_valid_aux :
    ∀ (n : Nat) (buf : List Nat), buf.length ≤ n →
      ∀ f ∈ (processAcc buf).1, validFrame f := by
  intro n
  induction n with
  | zero =>
    intro buf h f hf
    have hb : buf = [] := List.eq_nil_of_length_eq_zero (by omega)
    subst hb
    simp [processAcc, processAccGo] at hf
  | succ n ih =>
    intro buf h f hf
    by_cases h25 : 25 ≤ buf.length
    · match buf with
      | b :: rest =>
        have hlen : rest.length + 1 ≤ n + 1 := by
          simpa using h
        by_cases hb : b = 65
        · subst hb
          rw [processAcc_frame h25] at hf
          rcases List.mem_cons.mp hf with h1 | h1
          · subst h1
            constructor
            · simp only [List.length_take, List.length_cons]
              simp only [List.length_cons] at h25
              omega
            · simp [List.take_succ_cons]
          · exact ih ((65 :: rest).drop 25)
              (by simp only [List.length_drop, List.length_cons]; omega) f h1
        · rw [processAcc_drop hb h25] at hf
          exact ih rest (by omega) f hf
    · rw [processAcc_small buf (by omega)] at hf
      simp at hf

theorem processAcc_valid (buf : List Nat) :
    ∀ f ∈ (processAcc buf).1, validFrame f :=
  processAcc_valid_aux buf.length buf le_rfl

theorem runChunks_valid :
    ∀ (chunks : List (List Nat)) (acc : List Nat),
      ∀ f ∈ (runChunks acc chunks).1, validFrame f := by
  intro chunks
  induction chunks with
  | nil => intro acc f hf; simp [runChunks] at hf
  | cons c cs ih =>
    intro acc f hf
    by_cases hc : c.isEmpty
    · simp only [runChunks, if_pos hc] at hf
      exact ih acc f hf
    · simp only [runChunks, if_neg hc] at hf
      rcases List.mem_append.mp hf with h1 | h1
      · exact processAcc_valid (acc ++ c) f h1
      · exact ih ((processAcc (acc ++ c)).2) f h1

theorem streamOf_processAcc {fs : List (List Nat)} {s : List Nat}
    (h : StreamOf (fun b => b ≠ 65) fs s) : (processAcc s).1 = fs := by
  induction h with
  | nil => rfl
  | @noise fs s b hb h ih =>
    by_cases h25 : 25 ≤ (b :: s).length
    · rw [processAcc_drop hb h25]; exact ih
    · have hlen : s.length + 1 < 25 := by
        simpa using Nat.lt_of_not_le h25
      rw [processAcc_small (b :: s) (by simp only [List.length_cons]; omega)]
      rw [processAcc_small s (by omega)] at ih
      simpa using ih.symm
  | @frame fs s f hf h ih =>
    cases f with
    | nil => simp [validFrame] at hf
    | cons a t =>
      have ha : a = 65 := by simpa [validFrame] using hf.2
      subst ha
      have hl : (65 :: t).length = 25 := hf.1
      have e : (65 :: t) ++ s = 65 :: (t ++ s) := rfl
      have h25 : 25 ≤ (65 :: (t ++ s)).length := by
        simp only [List.length_cons, List.length_append]
        simp only [List.length_cons] at hl
        omega
      rw [e, processAcc_frame h25]
      have ht : (65 :: (t ++ s)).take 25 = 65 :: t := by
        rw [← e]; exact List.take_left' hl
      have hd : (65 :: (t ++ s)).drop 25 = s := by
        rw [← e]; exact List.drop_left' hl
      rw [ht, hd, ih]


/-! ## Iteration accounting for the inner loop -/

theorem processAcc_count_aux :
    ∀ (n : Nat) (buf : List Nat), buf.length ≤ n →
      buf.length = processAccCountGo n buf + 24 * (processAccGo n buf).1.length
        + (processAccGo n buf).2.length := by
  intro n
  induction n with
  | zero =>
    intro buf h
    have hb : buf = [] := List.eq_nil_of_length_eq_zero (by omega)
    subst hb
    simp [processAccCountGo, processAccGo]
  | succ n ih =>
    intro buf h
    match buf with
    | [] => simp [processAccCountGo, processAccGo]
    | b :: rest =>
      have hlen : rest.length + 1 ≤ n + 1 := by simpa using h
      by_cases h25 : 25 ≤ (b :: rest).length
      · by_cases hb : b = 65
        · subst hb
          have h25n : 25 ≤ rest.length + 1 := by simpa using h25
          have hih := ih ((65 :: rest).drop 25)
            (by simp only [List.length_drop, List.length_cons]; omega)
          simp only [List.length_drop, List.length_cons] at hih
          simp only [processAccCountGo, processAccGo, List.length_cons, if_pos h25n,
            if_pos trivial]
          omega
        · simp only [processAccCountGo, processAccGo, if_pos h25, if_neg hb]
          have hih := ih rest (by omega)
          simp only [List.length_cons]
          omega
      · have hsm : processAccGo (n + 1) (b :: rest) = ([], b :: rest) := by
          simp only [processAccGo, if_neg h25]
        have hsc : processAccCountGo (n + 1) (b :: rest) = 0 := by
          simp only [processAccCountGo, if_neg h25]
        rw [hsm, hsc]
        simp

theorem runChunks_len :
    ∀ (chunks : List (List Nat)) (acc : List Nat), acc.length < 25 →
      (runChunks acc chunks).2.length < 25 := by
  intro chunks
  induction chunks with
  | nil => intro acc h; simpa [runChunks] using h
  | cons c cs ih =>
    intro acc h
    by_cases hc : c.isEmpty
    · simp only [runChunks, if_pos hc]
      exact ih acc h
    · simp [runChunks, hc]
      exact ih ((processAcc (acc ++ c)).2) (processAcc_len (acc ++ c))

/-! ## Claim C1 -/

/-- C1, counterexample to the claim as stated: with arbitrary noise the
assembler does not emit exactly the valid frames.  The stream consisting
of a single noise byte 0x41 followed by the valid frame frameF is a
concatenation of the frame list [frameF] with one interleaved noise byte,
yet processing it (in one read) emits a misframed packet instead of
frameF. -/
theorem c1_cex :
    StreamOf (fun _ => True) [frameF] streamS ∧
      (runChunks [] [streamS]).1 ≠ [frameF] := by
  constructor
  · have h1 : StreamOf (fun _ => True) [frameF] (frameF ++ []) :=
      StreamOf.frame frameF (by decide) StreamOf.nil
    have h2 : StreamOf (fun _ => True) [frameF] (65 :: (frameF ++ [])) :=
      StreamOf.noise 65 trivial h1
    simpa [streamS] using h2
  · decide

/-- C1 (amended): for every byte stream formed by concatenating valid
25-byte frames (header byte 0x41) interleaved with noise bytes none of
which equals the header byte, and for every way of splitting that stream
into read chunks, the frame assembler emits exactly the valid frames, each
a 25-byte frame beginning with 0x41, in the order their header bytes
appeared in the stream. -/
theorem c1_assembler_chunking_invariance (fs : List (List Nat)) (s : List Nat)
    (chunks : List (List Nat)) (hs : StreamOf (fun b => b ≠ 65) fs s)
    (hj : chunks.flatten = s) :
    (runChunks [] chunks).1 = fs ∧ ∀ f ∈ (runChunks [] chunks).1, validFrame f := by
  refine ⟨?_, runChunks_valid chunks []⟩
  rw [runChunks_flatten chunks [] (by simp), List.nil_append, hj]
  exact streamOf_processAcc hs

/-- Witness for the amended C1 theorem: frameF surrounded by the noise
bytes 7 and 9, delivered in two reads split in the middle of the frame, is
reassembled to exactly [frameF]. -/
theorem c1_assembler_chunking_invariance_witness :
    (runChunks [] witChunks).1 = [frameF] ∧
      ∀ f ∈ (runChunks [] witChunks).1, validFrame f :=
  c1_assembler_chunking_invariance [frameF] witStream witChunks
    (by
      have h1 : StreamOf (fun b => b ≠ 65) [] ([] : List Nat) := StreamOf.nil
      have h2 : StreamOf (fun b => b ≠ 65) [] [9] :=
        StreamOf.noise 9 (by decide) h1
      have h3 : StreamOf (fun b => b ≠ 65) [frameF] (frameF ++ [9]) :=
        StreamOf.frame frameF (by decide) h2
      have h4 : StreamOf (fun b => b ≠ 65) [frameF] (7 :: (frameF ++ [9])) :=
        StreamOf.noise 7 (by decide) h3
      exact h4)
    (by decide)

/-! ## Claim C8 -/

/-- C8 (confirmed): the inner processing loop of the assembler terminates
with strict forward progress: its processAccCount buf iterations each
either discard exactly one front byte or consume exactly 25 bytes (the
accounting identity below), the number of iterations is bounded by the
buffer length, control returns with fewer than 25 bytes remaining, and
with fewer than 25 bytes in the accumulator the loop body is not entered
at all. -/
theorem c8_inner_loop_progress (buf : List Nat) :
    buf.length = processAccCount buf + 24 * (processAcc buf).1.length
        + (processAcc buf).2.length
      ∧ processAccCount buf ≤ buf.length
      ∧ (processAcc buf).2.length < 25
      ∧ (buf.length < 25 → processAcc buf = ([], buf)) := by
  have h : buf.length = processAccCount buf + 24 * (processAcc buf).1.length
      + (processAcc buf).2.length := processAcc_count_aux buf.length buf le_rfl
  exact ⟨h, by omega, processAcc_len buf, fun hlt => processAcc_small buf hlt⟩

/-- Witness for the C8 theorem at the concrete buffer witStream. -/
theorem c8_inner_loop_progress_witness :
    witStream.length = processAccCount witStream + 24 * (processAcc witStream).1.length
        + (processAcc witStream).2.length
      ∧ processAccCount witStream ≤ witStream.length
      ∧ (processAcc witStream).2.length < 25
      ∧ (witStream.length < 25 → processAcc witStream = ([], witStream)) :=
  c8_inner_loop_progress witStream

/-! ## Claim C10 -/

/-- C10 (confirmed): whenever the inner processing loop has exited, the
accumulator holds at most 24 bytes; in particular, across any sequence of
reads starting from the empty accumulator, the accumulator readLoop
retains between reads never exceeds 24 bytes. -/
theorem c10_accumulator_bound :
    (∀ buf : List Nat, (processAcc buf).2.length ≤ 24) ∧
      ∀ chunks : List (List Nat), ((runChunks [] chunks).2).length ≤ 24 := by
  constructor
  · intro buf
    have h := processAcc_len buf
    omega
  · intro chunks
    have h := runChunks_len chunks [] (by simp)
    omega


/-! ## Channel lemmas -/

theorem runChan_fifo :
    ∀ (ops : List ChanOp) (s : ChanState),
      (runChan s ops).received ++ (runChan s ops).queue =
        s.received ++ s.queue ++ acceptedRun s.queue ops := by
  intro ops
  induction ops with
  | nil => intro s; simp [runChan, acceptedRun]
  | cons op ops ih =>
    intro s
    cases op with
    | enq f =>
      by_cases hq : s.queue.length < 100
      · have hstep : stepChan s (ChanOp.enq f) = ⟨s.queue ++ [f], s.received⟩ := by
          simp [stepChan, chanPush, hq]
        simp only [runChan, hstep]
        rw [ih ⟨s.queue ++ [f], s.received⟩]
        simp [acceptedRun, hq, List.append_assoc]
      · have hstep : stepChan s (ChanOp.enq f) = ⟨s.queue, s.received⟩ := by
          simp [stepChan, chanPush, hq]
        simp only [runChan, hstep]
        rw [ih ⟨s.queue, s.received⟩]
        simp [acceptedRun, hq]
    | deq =>
      cases hq : s.queue with
      | nil =>
        have hstep : stepChan s ChanOp.deq = s := by
          simp [stepChan, hq]
        simp only [runChan, hstep]
        rw [ih s]
        simp [acceptedRun, hq]
      | cons f rest =>
        have hstep : stepChan s ChanOp.deq = ⟨rest, s.received ++ [f]⟩ := by
          simp [stepChan, hq]
        simp only [runChan, hstep]
        rw [ih ⟨rest, s.received ++ [f]⟩]
        simp [acceptedRun, hq, List.append_assoc]

/-! ## Claim C4 -/

/-- C4, counterexample to the claim as stated: the synthetic producer does
not report a drop.  On a full queue (100 buffered frames) the mockLoop
send takes its empty default branch: the frame is dropped and the logged
flag is false, while the claim requires the drop to be reported by either
producer. -/
theorem c4_cex :
    (List.replicate 100 ([] : List Nat)).length = 100 ∧
      enqueueMock (List.replicate 100 []) frameF = (List.replicate 100 [], false) := by
  constructor
  · simp
  · decide

/-- C4 (amended): sends to the handoff channel (capacity 100) never block:
on a full queue the newest frame is dropped and the queue is unchanged,
the real producer logs the drop while the synthetic producer drops it
silently; on a non-full queue the frame is appended; and the consumer
receives exactly the frames whose send was accepted, in strict FIFO
order. -/
theorem c4_drop_newest_fifo (q : List (List Nat)) (f : List Nat)
    (s : ChanState) (ops : List ChanOp) :
    (100 ≤ q.length → enqueueReal q f = (q, true) ∧ enqueueMock q f = (q, false))
      ∧ (q.length < 100 →
          enqueueReal q f = (q ++ [f], false) ∧ enqueueMock q f = (q ++ [f], false))
      ∧ (runChan s ops).received ++ (runChan s ops).queue =
          s.received ++ s.queue ++ acceptedRun s.queue ops := by
  refine ⟨?_, ?_, runChan_fifo ops s⟩
  · intro h
    have hn : ¬ q.length < 100 := by omega
    exact ⟨by simp [enqueueReal, hn], by simp [enqueueMock, hn]⟩
  · intro h
    exact ⟨by simp [enqueueReal, h], by simp [enqueueMock, h]⟩

/-- Witness for the amended C4 theorem: a full queue of 100 frames, plus a
send followed by a receive on an initially empty channel. -/
theorem c4_drop_newest_fifo_witness :
    (100 ≤ (List.replicate 100 ([] : List Nat)).length →
        enqueueReal (List.replicate 100 []) frameF = (List.replicate 100 [], true)
          ∧ enqueueMock (List.replicate 100 []) frameF = (List.replicate 100 [], false))
      ∧ ((List.replicate 100 ([] : List Nat)).length < 100 →
          enqueueReal (List.replicate 100 []) frameF
              = (List.replicate 100 [] ++ [frameF], false)
            ∧ enqueueMock (List.replicate 100 []) frameF
              = (List.replicate 100 [] ++ [frameF], false))
      ∧ (runChan ⟨[], []⟩ [ChanOp.enq frameF, ChanOp.deq]).received
          ++ (runChan ⟨[], []⟩ [ChanOp.enq frameF, ChanOp.deq]).queue =
          ([] : List (List Nat)) ++ ([] : List (List Nat))
            ++ acceptedRun [] [ChanOp.enq frameF, ChanOp.deq] :=
  c4_drop_newest_fifo (List.replicate 100 []) frameF ⟨[], []⟩
    [ChanOp.enq frameF, ChanOp.deq]

/-! ## Producer session lemmas -/

theorem readLoopRun_terminal :
    ∀ (evs : List ReadEvent) (acc : List Nat), evs.any isTerminal = true →
      readLoopRun acc evs = ((runChunks acc (chunksOf evs)).1, 1) := by
  intro evs
  induction evs with
  | nil => intro acc h; simp at h
  | cons e evs ih =>
    intro acc h
    cases e with
    | cancel => simp [readLoopRun, chunksOf, runChunks]
    | fail => simp [readLoopRun, chunksOf, runChunks]
    | chunk c =>
      have hterm : evs.any isTerminal = true := by
        simpa [isTerminal] using h
      by_cases hc : c.isEmpty
      · simp only [readLoopRun, if_pos hc, chunksOf]
        rw [ih acc hterm]
        simp [runChunks, hc]
      · simp only [readLoopRun, if_neg hc, chunksOf]
        rw [ih ((processAcc (acc ++ c)).2) hterm]
        simp [runChunks, hc]

theorem consumeClosed_drains :
    ∀ q : List (List Nat), consumeClosed q = (q, true) := by
  intro q
  induction q with
  | nil => rfl
  | cons f rest ih => simp [consumeClosed, ih]

theorem mockCloseCount_one :
    ∀ mevs : List MockEvent, MockEvent.cancel ∈ mevs → mockCloseCount mevs = 1 := by
  intro mevs
  induction mevs with
  | nil => intro h; simp at h
  | cons e evs ih =>
    intro h
    cases e with
    | cancel => rfl
    | tick =>
      have hm : MockEvent.cancel ∈ evs := by
        cases List.mem_cons.mp h with
        | inl h1 => simp at h1
        | inr h1 => exact h1
      simp [mockCloseCount, ih hm]

/-! ## Claim C5 -/

/-- C5 (confirmed): each producer closes the handoff channel exactly once,
when its session ends: readLoop closes once at the first read error or
observed cancellation and emits only the frames assembled from the chunks
read strictly before that point (a read error is not retried); mockLoop
closes once on observing cancellation; and a consumer draining a closed
channel receives all remaining buffered frames, in order, then observes
end-of-stream. -/
theorem c5_close_once_eos (acc : List Nat) (evs : List ReadEvent)
    (mevs : List MockEvent) (q : List (List Nat))
    (hterm : evs.any isTerminal = true) (hcancel : MockEvent.cancel ∈ mevs) :
    readLoopRun acc evs = ((runChunks acc (chunksOf evs)).1, 1)
      ∧ mockCloseCount mevs = 1
      ∧ consumeClosed q = (q, true) :=
  ⟨readLoopRun_terminal evs acc hterm, mockCloseCount_one mevs hcancel,
    consumeClosed_drains q⟩

/-- Witness for the C5 theorem: a session reading one chunk, hitting a
read error, with an unreachable further read; a mock session cancelled
after one tick; a closed channel holding two buffered frames. -/
theorem c5_close_once_eos_witness :
    readLoopRun [] [ReadEvent.chunk witStream, ReadEvent.fail, ReadEvent.chunk witStream]
        = ((runChunks [] (chunksOf [ReadEvent.chunk witStream, ReadEvent.fail,
            ReadEvent.chunk witStream])).1, 1)
      ∧ mockCloseCount [MockEvent.tick, MockEvent.cancel, MockEvent.tick] = 1
      ∧ consumeClosed [frameF, frameF] = ([frameF, frameF], true) :=
  c5_close_once_eos [] [ReadEvent.chunk witStream, ReadEvent.fail, ReadEvent.chunk witStream]
    [MockEvent.tick, MockEvent.cancel, MockEvent.tick] [frameF, frameF]
    (by decide) (by decide)


/-! ## Decoder lemmas -/

theorem or_of_lt (a b k : Nat) (hb : b < 2 ^ k) :
    (a <<< k) ||| b = a * 2 ^ k + b := by
  apply Nat.eq_of_testBit_eq
  intro i
  rw [Nat.testBit_lor, Nat.testBit_shiftLeft]
  rw [show a * 2 ^ k + b = 2 ^ k * a + b by ring]
  rw [Nat.testBit_mul_pow_two_add a hb i]
  by_cases hik : i < k
  · have hnk : ¬ k ≤ i := Nat.not_le.mpr hik
    simp [ge_iff_le, hik, hnk]
  · have hk : k ≤ i := Nat.le_of_not_lt hik
    have hbf : b.testBit i = false :=
      Nat.testBit_lt_two_pow
        (lt_of_lt_of_le hb (Nat.pow_le_pow_right (by norm_num) hk))
    simp [ge_iff_le, hik, hk, hbf]

theorem rawValue_eq (b0 b1 b2 : Nat) (h1 : b1 < 256) (h2 : b2 < 256) :
    rawValue b0 b1 b2 = 65536 * b0 + 256 * b1 + b2 := by
  have e0 : b0 <<< 16 ||| b1 <<< 8 = (b0 * 256 + b1) <<< 8 := by
    rw [Nat.shiftLeft_eq b1 8]
    rw [or_of_lt b0 (b1 * 2 ^ 8) 16 (by norm_num; omega)]
    rw [Nat.shiftLeft_eq]
    ring
  unfold rawValue
  rw [e0, or_of_lt (b0 * 256 + b1) b2 8 (by norm_num; omega)]
  ring

theorem signExtend_toInt (w : Nat) (hw : w < 16777216) :
    toInt32 (signExtend w) = signed24Spec w := by
  have hbit : w &&& 8388608 = (w.testBit 23).toNat * 8388608 := by
    have h := Nat.and_two_pow w 23
    norm_num at h
    exact h
  by_cases hge : 8388608 ≤ w
  · have htb : w.testBit 23 = true := by
      rw [Nat.testBit_to_div_mod]
      simp only [decide_eq_true_eq]
      omega
    have hcond : w &&& 8388608 ≠ 0 := by
      rw [hbit, htb]
      norm_num
    have hor : w ||| 4278190080 = 4278190080 + w := by
      have h2 : (255 : Nat) <<< 24 = 4278190080 := by
        norm_num [Nat.shiftLeft_eq]
      calc w ||| 4278190080 = 255 <<< 24 ||| w := by rw [Nat.lor_comm, h2]
        _ = 255 * 2 ^ 24 + w := or_of_lt 255 w 24 (by norm_num; omega)
        _ = 4278190080 + w := by norm_num
    unfold signExtend toInt32 signed24Spec
    rw [if_pos hcond, hor, if_neg (by omega), if_pos hge]
    push_cast
    omega
  · have htb : w.testBit 23 = false := by
      rw [Nat.testBit_to_div_mod]
      simp only [decide_eq_false_iff_not]
      omega
    have hcond : ¬ w &&& 8388608 ≠ 0 := by
      rw [hbit, htb]
      norm_num
    unfold signExtend toInt32 signed24Spec
    rw [if_neg hcond, if_pos (by omega), if_neg hge]

theorem decode24_eq (b0 b1 b2 : Nat) (h0 : b0 < 256) (h1 : b1 < 256)
    (h2 : b2 < 256) :
    decode24 b0 b1 b2 = signed24Spec (65536 * b0 + 256 * b1 + b2) := by
  unfold decode24
  rw [rawValue_eq b0 b1 b2 h1 h2]
  exact signExtend_toInt _ (by omega)

/-! ## Claim C3 -/

/-- C3 (confirmed): for every channel triplet of bytes, the decoder
reconstructs the 24-bit big-endian two's-complement integer (shift-OR
reassembly, sign extension via OR 0xFF000000, read as a signed 32-bit
integer equals the mathematical value of the 24-bit word) and outputs
volts = signedValue * 5 / 2^24 / gain; in particular triplet 00 00 01
with gain 1 yields 5 / 2^24 volts and triplet FF FF FF decodes to the
signed integer -1. -/
theorem c3_channel_decode (b0 b1 b2 : Nat) (gain : ℚ)
    (h0 : b0 < 256) (h1 : b1 < 256) (h2 : b2 < 256) :
    (decode24 b0 b1 b2 = signed24Spec (65536 * b0 + 256 * b1 + b2)
        ∧ decodeChannel b0 b1 b2 gain =
            (signed24Spec (65536 * b0 + 256 * b1 + b2) : ℚ) * 5 / 16777216 / gain)
      ∧ decodeChannel 0 0 1 1 = 5 / 16777216
      ∧ decode24 255 255 255 = -1 := by
  refine ⟨⟨decode24_eq b0 b1 b2 h0 h1 h2, ?_⟩, ?_, by decide⟩
  · unfold decodeChannel scaleQ
    rw [decode24_eq b0 b1 b2 h0 h1 h2]
    ring
  · have hd : decode24 0 0 1 = 1 := by decide
    unfold decodeChannel scaleQ
    rw [hd]
    norm_num

/-- Witness for the C3 theorem at the triplet 00 00 02 with gain 3. -/
theorem c3_channel_decode_witness :
    (decode24 0 0 2 = signed24Spec (65536 * 0 + 256 * 0 + 2)
        ∧ decodeChannel 0 0 2 3 =
            (signed24Spec (65536 * 0 + 256 * 0 + 2) : ℚ) * 5 / 16777216 / 3)
      ∧ decodeChannel 0 0 1 1 = 5 / 16777216
      ∧ decode24 255 255 255 = -1 :=
  c3_channel_decode 0 0 2 3 (by decide) (by decide) (by decide)

/-! ## Claim C9 -/

/-- C9 (confirmed): for every signed integer v in the 24-bit
two's-complement range, encoding v into three big-endian bytes as the
synthetic source does and decoding them as the consumer does yields v
again. -/
theorem c9_encode_decode_roundtrip (v : Int)
    (hlo : -8388608 ≤ v) (hhi : v ≤ 8388607) :
    decode24 (encB0 v) (encB1 v) (encB2 v) = v := by
  have h0 : encB0 v < 256 := by unfold encB0; omega
  have h1 : encB1 v < 256 := by unfold encB1; omega
  have h2 : encB2 v < 256 := by unfold encB2; omega
  rw [decode24_eq _ _ _ h0 h1 h2]
  unfold encB0 encB1 encB2 signed24Spec
  split <;> omega

/-- Witness for the C9 theorem at v = -1 (encoded as FF FF FF). -/
theorem c9_encode_decode_roundtrip_witness :
    decode24 (encB0 (-1)) (encB1 (-1)) (encB2 (-1)) = -1 :=
  c9_encode_decode_roundtrip (-1) (by decide) (by decide)

/-! ## Gain store lemmas -/

theorem runRequests_ne_zero :
    ∀ (reqs : List (Option ℚ)) (g : ℚ), g ≠ 0 → runRequests g reqs ≠ 0 := by
  intro reqs
  induction reqs with
  | nil => intro g h; simpa [runRequests] using h
  | cons r rs ih =>
    intro g h
    cases r with
    | none => simpa [runRequests, handleSetGain] using ih g h
    | some v =>
      by_cases hv : v = 0
      · subst hv
        simpa [runRequests, handleSetGain] using ih g h
      · simpa [runRequests, handleSetGain, hv] using ih v hv

theorem decodeFrame_some (packet : List Nat) (gain : ℚ)
    (hlen : packet.length = 25) (hhead : packet.headD 0 = 65) :
    decodeFrame packet gain
      = some ((List.range 8).map fun ch =>
          decodeChannel (packet.getD (1 + ch * 3) 0) (packet.getD (1 + ch * 3 + 1) 0)
            (packet.getD (1 + ch * 3 + 2) 0) gain) := by
  unfold decodeFrame
  rw [if_neg (by omega), if_neg (fun hne => hne hhead)]

/-! ## Claim C2 -/

/-- C2, counterexample to the claim as stated: at gain exactly 0 the
decode step of the consumer still produces all channel values (there is
no zero-gain check before the division), refuting the claim that no
decoded value is produced when the gain is 0. -/
theorem c2_cex : (decodeFrame frameF 0).isSome = true := by decide

/-- C2 (amended): the decoder performs no zero-gain rejection at the
point of use: it produces all 8 channel values whatever the gain.  The
guarantee comes from the write boundary instead: the stored gain starts
at 4.0 and handleSetGain rejects 0, so after any sequence of set-gain
requests the gain read at the point of use is nonzero and no decode
divides by zero. -/
theorem c2_zero_gain (reqs : List (Option ℚ)) (packet : List Nat)
    (hlen : packet.length = 25) (hhead : packet.headD 0 = 65) :
    runRequests defaultGain reqs ≠ 0
      ∧ ∃ vs : List ℚ,
          decodeFrame packet (runRequests defaultGain reqs) = some vs
            ∧ vs.length = 8 := by
  refine ⟨runRequests_ne_zero reqs defaultGain (by norm_num [defaultGain]), ?_⟩
  refine ⟨_, decodeFrame_some packet _ hlen hhead, ?_⟩
  simp

/-- Witness for the amended C2 theorem: requests setting gain to 0 (it is
rejected), a malformed request, then gain one half; decoding frameF with
the resulting gain. -/
theorem c2_zero_gain_witness :
    runRequests defaultGain [some 0, none, some (1 / 2)] ≠ 0
      ∧ ∃ vs : List ℚ,
          decodeFrame frameF (runRequests defaultGain [some 0, none, some (1 / 2)])
              = some vs
            ∧ vs.length = 8 :=
  c2_zero_gain [some 0, none, some (1 / 2)] frameF (by decide) (by decide)

/-! ## Claim C7 -/

/-- C7 (confirmed): a set-gain request with value exactly 0 is rejected
with a client-visible 400 status and the stored gain is unchanged; a
request with any non-zero value succeeds with status 200 and the stored
gain becomes that value. -/
theorem c7_set_gain_validation (g v : ℚ) :
    handleSetGain g (some 0) = (g, 400)
      ∧ (v ≠ 0 → handleSetGain g (some v) = (v, 200)) := by
  constructor
  · simp [handleSetGain]
  · intro hv
    simp [handleSetGain, hv]

/-- Witness for the C7 theorem: stored gain 4, rejected request 0,
accepted request 3. -/
theorem c7_set_gain_validation_witness :
    handleSetGain 4 (some 0) = (4, 400)
      ∧ ((3 : ℚ) ≠ 0 → handleSetGain 4 (some 3) = (3, 200)) :=
  c7_set_gain_validation 4 3

/-! ## Claim C6 -/

theorem FindPreferredPort_eq_find :
    ∀ ports : List (List Char),
      FindPreferredPort ports = (ports.find? portMatches).getD [] := by
  intro ports
  induction ports with
  | nil => rfl
  | cons p ps ih =>
    by_cases hp : portMatches p = true
    · simp [FindPreferredPort, hp, List.find?_cons_of_pos]
    · simp [FindPreferredPort, hp, List.find?_cons_of_neg, ih]

/-- C6, counterexample to the claim as stated: with the mock argument but
an empty port list the program exits before starting any source (main
returns when ListPorts yields no ports), so the synthetic source is not
selected even though the first program argument is mock. -/
theorem c6_cex :
    isMockArg ["server".toList, "mock".toList] = true ∧
      selectPort ["server".toList, "mock".toList] [] = none := by
  constructor
  · decide
  · rfl

/-- C6 (amended): provided at least one port is listed: if the first
program argument is mock, or no listed port name contains usbmodem or
usbserial (FindPreferredPort, which returns exactly the first matching
port, returns the empty name), the synthetic source (port MOCK) is
selected; otherwise the first matching port is used.  With an empty port
list the program exits without selecting any source. -/
theorem c6_port_selection (argv ports : List (List Char)) (hne : ports ≠ []) :
    FindPreferredPort ports = (ports.find? portMatches).getD []
      ∧ ((isMockArg argv = true ∨ FindPreferredPort ports = []) →
          selectPort argv ports = some portMock)
      ∧ (isMockArg argv = false → FindPreferredPort ports ≠ [] →
          selectPort argv ports = some (FindPreferredPort ports)) := by
  have hlen : ¬ ports.length = 0 := by
    simpa [List.length_eq_zero] using hne
  refine ⟨FindPreferredPort_eq_find ports, ?_, ?_⟩
  · intro h
    cases h with
    | inl h => simp [selectPort, hlen, h]
    | inr h =>
      by_cases hm : isMockArg argv = true
      · simp [selectPort, hlen, hm]
      · simp [selectPort, hlen, hm, h]
  · intro hm hf
    simp [selectPort, hlen, hm, hf]

/-- Witness for the amended C6 theorem: no mock argument and a port list
whose second entry contains usbmodem. -/
theorem c6_port_selection_witness :
    FindPreferredPort ["/dev/cu.BT".toList, "/dev/tty.usbmodem14101".toList]
        = ((["/dev/cu.BT".toList, "/dev/tty.usbmodem14101".toList]).find? portMatches).getD []
      ∧ ((isMockArg ["server".toList] = true
            ∨ FindPreferredPort ["/dev/cu.BT".toList, "/dev/tty.usbmodem14101".toList] = []) →
          selectPort ["server".toList] ["/dev/cu.BT".toList, "/dev/tty.usbmodem14101".toList]
            = some portMock)
      ∧ (isMockArg ["server".toList] = false →
          FindPreferredPort ["/dev/cu.BT".toList, "/dev/tty.usbmodem14101".toList] ≠ [] →
          selectPort ["server".toList] ["/dev/cu.BT".toList, "/dev/tty.usbmodem14101".toList]
            = some (FindPreferredPort ["/dev/cu.BT".toList, "/dev/tty.usbmodem14101".toList])) :=
  c6_port_selection ["server".toList]
    ["/dev/cu.BT".toList, "/dev/tty.usbmodem14101".toList] (by decide)

end EEG
